import Mathlib

/-!
Shallow embedding of `src/ciphers.py` (classical Vigenere and block affine
ciphers).

Modelling conventions:
* Python strings are `List Nat` of ASCII code points (the repository only
  manipulates ASCII data: its alphabets are `A..Z` and `A..Za..z`, and the
  regex-based normalisation is modelled on the ASCII fragment of `\w`).
* Python exceptions are modelled with `Except PyErr`; an operation that in
  Python mutates `self.text` and returns `self` is modelled as a function
  from the cipher state to `Except PyErr` of the new state.  An exception
  raised during the per-character loop leaves `self.text` unassigned in the
  Python code (the assignment happens only after the loop), which the
  `Except` model reflects: on `.error` no new state is produced.
* Python `%` on integers is floor-style modulo, `Int.fmod`; `x % 0` raises
  `ZeroDivisionError`.
-/

/-- The Python exceptions that `ciphers.py` can raise.
`exception` stands for the explicit `raise Exception("Couldnt find a modulo
inverse")` in `BlockAffineCipher.decrypt.get_inverse`; the other three are
the builtin errors raised by `%` with zero divisor, `str.index` on a missing
character, and sequence indexing out of range. -/
inductive PyErr where
  | zeroDivisionError
  | valueError
  | indexError
  | exception
  deriving DecidableEq, Repr

/-- `u_alpha = 'ABCDEFGHIJKLMNOPQRSTUVWXYZ'` as ASCII codes 65..90. -/
def u_alpha : List Nat :=
  [65, 66, 67, 68, 69, 70, 71, 72, 73, 74, 75, 76, 77, 78, 79, 80, 81, 82,
   83, 84, 85, 86, 87, 88, 89, 90]

/-- `ul_alpha = 'ABC..XYZabc..xyz'` as ASCII codes 65..90 then 97..122. -/
def ul_alpha : List Nat :=
  u_alpha ++
  [97, 98, 99, 100, 101, 102, 103, 104, 105, 106, 107, 108, 109, 110, 111,
   112, 113, 114, 115, 116, 117, 118, 119, 120, 121, 122]

/-- The alphabet selected by the `full` flag (`ul_alpha if full else u_alpha`). -/
def alphaOf (full : Bool) : List Nat := if full then ul_alpha else u_alpha

/-- ASCII fragment of the regex class `\w` used in
`re.sub(r"\W+", "", text, flags=re.UNICODE)`: digits, uppercase letters,
underscore, lowercase letters. -/
def isWordChar (c : Nat) : Bool :=
  (48 ≤ c && c ≤ 57) || (65 ≤ c && c ≤ 90) || c == 95 || (97 ≤ c && c ≤ 122)

/-- ASCII `str.upper` on one character. -/
def pyUpper (c : Nat) : Nat := if 97 ≤ c ∧ c ≤ 122 then c - 32 else c

/-- The normalisation both constructors apply to raw text:
`re.sub(r"\W+", "", s)`, then `.upper()` when the restricted alphabet is in
use (`if not full: text = text.upper()`). -/
def pyNormalize (full : Bool) (s : List Nat) : List Nat :=
  let t := s.filter isWordChar
  if full then t else t.map pyUpper

/-- Python string comparison (lexicographic on code points), as used by
`list.sort()` on a list of strings. -/
def pyStrLe : List Nat → List Nat → Bool
  | [], _ => true
  | _ :: _, [] => false
  | a :: as, b :: bs => if a < b then true else if b < a then false else pyStrLe as bs

/-- Stable insertion of a string into a sorted list of strings. -/
def pyInsert (x : List Nat) : List (List Nat) → List (List Nat)
  | [] => [x]
  | y :: ys => if pyStrLe x y then x :: y :: ys else y :: pyInsert x ys

/-- `list.sort()` on a list of strings: ascending, stable.  On the distinct
rotations sorted here, any correct sort yields the same list. -/
def pySort : List (List Nat) → List (List Nat)
  | [] => []
  | x :: xs => pyInsert x (pySort xs)

/-- The substitution table built in `VigenereCipher.__init__`:
start from `len(alpha)` copies of the alphabet, replace row `i` by
`row[-i:] + row[:-i]` (rotate right by `i`; for `i = 0` this is the row
itself), then `vtable.sort()`. -/
def vigTable (full : Bool) : List (List Nat) :=
  let alpha := alphaOf full
  let n := alpha.length
  pySort ((List.range n).map (fun i => alpha.drop (n - i) ++ alpha.take (n - i)))

/-- The Vigenere cipher object: the `full` flag and the held (already
normalised) text.  The substitution table is the deterministic function
`vigTable full` of the flag, built once at construction. -/
structure VigenereCipher where
  full : Bool
  text : List Nat
  deriving DecidableEq, Repr

/-- `VigenereCipher(plaintext, full)`: normalise the text and keep the flag. -/
def VigenereCipher.init (plaintext : List Nat) (full : Bool) : VigenereCipher :=
  ⟨full, pyNormalize full plaintext⟩

/-- `VigenereCipher.expand(key, length)`: normalise the key the same way as
the text, then build `key[i % len(key)]` for `i in range(length)`.
When the normalised key is empty and the loop runs at least once,
`i % len(key)` raises `ZeroDivisionError`; with `length = 0` the loop body
never executes and the empty string is returned. -/
def VigenereCipher.expand (full : Bool) (key : List Nat) (length : Nat) :
    Except PyErr (List Nat) :=
  let k := pyNormalize full key
  if k.length = 0 then
    if length = 0 then .ok [] else .error .zeroDivisionError
  else
    .ok ((List.range length).map (fun i => k.getD (i % k.length) 0))

/-- Python `lst.index(c)` on a list of characters: position of the first
occurrence, `ValueError` when absent. -/
def pyIndex (l : List Nat) (c : Nat) : Except PyErr Nat :=
  if c ∈ l then .ok (l.indexOf c) else .error .valueError

/-- The row search in `VigenereCipher.encrypt`:
`ri = 0; for j, l in enumerate(self.table): if l[0] == key[i]: ri = j`
(the last matching row wins; `ri` stays 0 when none matches). -/
def vigRowIdx : List (List Nat) → Nat → Nat → Nat → Nat
  | [], _, _, acc => acc
  | row :: rest, k, j, acc =>
      vigRowIdx rest k (j + 1) (if row.getD 0 0 = k then j else acc)

/-- One character of `VigenereCipher.encrypt`: column index of the text
character in row 0, row index of the key character, output
`table[ri][ci]`. -/
def vigEncChar (table : List (List Nat)) (c k : Nat) : Except PyErr Nat :=
  match pyIndex (table.getD 0 []) c with
  | .error e => .error e
  | .ok ci => .ok ((table.getD (vigRowIdx table k 0 0) []).getD ci 0)

/-- The loop body of `VigenereCipher.encrypt` over the (text, expanded key)
pairs, in order, propagating the first exception. -/
def vigEncCore (table : List (List Nat)) : List (Nat × Nat) → Except PyErr (List Nat)
  | [] => .ok []
  | (c, k) :: rest =>
      match vigEncChar table c k with
      | .error e => .error e
      | .ok x =>
          match vigEncCore table rest with
          | .error e => .error e
          | .ok xs => .ok (x :: xs)

/-- One position of `VigenereCipher.decrypt`: `result[i]` starts as the empty
string; every row whose first character equals the key character overwrites
it with `table[0][row.index(c)]` (raising `ValueError` when the ciphertext
character is not in that row).  The fragment is a string of length 0 or 1. -/
def vigDecChar (table : List (List Nat)) (c k : Nat) : Except PyErr (List Nat) :=
  go (table.getD 0 []) table []
where
  go (t0 : List Nat) : List (List Nat) → List Nat → Except PyErr (List Nat)
    | [], acc => .ok acc
    | row :: rest, acc =>
        if row.getD 0 0 = k then
          match pyIndex row c with
          | .error e => .error e
          | .ok ci => go t0 rest [t0.getD ci 0]
        else go t0 rest acc

/-- The loop of `VigenereCipher.decrypt` over (ciphertext, expanded key)
pairs: collect the per-position fragments (joined afterwards). -/
def vigDecCore (table : List (List Nat)) : List (Nat × Nat) → Except PyErr (List (List Nat))
  | [] => .ok []
  | (c, k) :: rest =>
      match vigDecChar table c k with
      | .error e => .error e
      | .ok x =>
          match vigDecCore table rest with
          | .error e => .error e
          | .ok xs => .ok (x :: xs)

/-- `VigenereCipher.encrypt(key)`: expand the key to the text length, map the
table lookup over the text, and replace the held text by the join. -/
def VigenereCipher.encrypt (s : VigenereCipher) (key : List Nat) :
    Except PyErr VigenereCipher :=
  match VigenereCipher.expand s.full key s.text.length with
  | .error e => .error e
  | .ok ek =>
      match vigEncCore (vigTable s.full) (s.text.zip ek) with
      | .error e => .error e
      | .ok ct => .ok ⟨s.full, ct⟩

/-- `VigenereCipher.decrypt(key)`: expand the key to the text length, compute
the per-position fragments, and replace the held text by
`''.join(result)`. -/
def VigenereCipher.decrypt (s : VigenereCipher) (key : List Nat) :
    Except PyErr VigenereCipher :=
  match VigenereCipher.expand s.full key s.text.length with
  | .error e => .error e
  | .ok ek =>
      match vigDecCore (vigTable s.full) (s.text.zip ek) with
      | .error e => .error e
      | .ok frags => .ok ⟨s.full, frags.flatten⟩

/-- Python `str.find(c)`: index of the first occurrence, `-1` when absent
(no exception), as used on `self.alpha` in both affine transforms. -/
def pyFind (l : List Nat) (c : Nat) : Int :=
  if c ∈ l then (l.indexOf c : Int) else -1

/-- Python `x % m` on integers: floor-style remainder (`Int.fmod`), raising
`ZeroDivisionError` when `m = 0`. -/
def pyMod (x m : Int) : Except PyErr Int :=
  if m = 0 then .error .zeroDivisionError else .ok (x.fmod m)

/-- Python sequence indexing `l[i]` with an integer index: nonnegative
indices below the length, or negative indices counting from the end;
anything else raises `IndexError`. -/
def pyAt (l : List Nat) (i : Int) : Except PyErr Nat :=
  if 0 ≤ i then
    if i < (l.length : Int) then .ok (l.getD i.toNat 0) else .error .indexError
  else
    if -(l.length : Int) ≤ i then .ok (l.getD (i + (l.length : Int)).toNat 0)
    else .error .indexError

/-- The block affine cipher object: block size (always 2), the modulus, the
alphabet flag and the held text.  `self.alpha` is recovered from the flag by
`BlockAffineCipher.alpha`. -/
structure BlockAffineCipher where
  block : Nat
  modulo : Int
  full : Bool
  text : List Nat
  deriving DecidableEq, Repr

/-- `self.alpha = ul_alpha if full else u_alpha`. -/
def BlockAffineCipher.alpha (s : BlockAffineCipher) : List Nat := alphaOf s.full

/-- `BlockAffineCipher(plaintext, modulo, full)`: normalise the text, then
`while len(text) % block > 0: text += 'A'`.  With `block = 2` the loop pads
an odd-length text with exactly one `'A'` (code 65). -/
def BlockAffineCipher.init (plaintext : List Nat) (modulo : Int) (full : Bool) :
    BlockAffineCipher :=
  let t := pyNormalize full plaintext
  ⟨2, modulo, full, if t.length % 2 = 0 then t else t ++ [65]⟩

/-- One character of `BlockAffineCipher.encrypt`:
`num = alpha.find(ch); num = ((keya*num) + keyb) % modulo; alpha[num]`. -/
def affEncChar (alpha : List Nat) (m a b : Int) (c : Nat) : Except PyErr Nat :=
  match pyMod (a * pyFind alpha c + b) m with
  | .error e => .error e
  | .ok num => pyAt alpha num

/-- `BlockAffineCipher.decrypt.get_inverse(a, m)`: when `gcd(a, m) = 1`,
linear search for the first `i` in `range(1, m)` with `(a*i) % m == 1`;
reaching the end of the function (coprimality fails, or the search is empty
or exhausted) raises `Exception("...")`.  `fractions.gcd(a, m)` for `m > 0`
agrees with `Int.gcd`; the search range is empty whenever `m ≤ 1`, so the
`%` inside the loop test never divides by zero. -/
def get_inverse (a m : Int) : Except PyErr Int :=
  match (if Int.gcd a m = 1 then
          (List.range' 1 (m.toNat - 1)).find? (fun (i : Nat) => (a * (i : Int)).fmod m == 1)
         else none) with
  | some i => .ok (i : Int)
  | none => .error .exception

/-- One character of `BlockAffineCipher.decrypt`:
`num = alpha.find(ch); mod_inv = get_inverse(keya, modulo);
num = (mod_inv*(num - keyb)) % modulo; alpha[num]`.
`get_inverse` is called afresh for every character of the text, inside the
loop, exactly as in the source. -/
def affDecChar (alpha : List Nat) (m a b : Int) (c : Nat) : Except PyErr Nat :=
  let num := pyFind alpha c
  match get_inverse a m with
  | .error e => .error e
  | .ok inv =>
      match pyMod (inv * (num - b)) m with
      | .error e => .error e
      | .ok n => pyAt alpha n

/-- Sequential per-character loop filling `result` in order; the first
exception aborts the whole call before `self.text` is reassigned. -/
def mapExcept (f : Nat → Except PyErr Nat) : List Nat → Except PyErr (List Nat)
  | [] => .ok []
  | c :: cs =>
      match f c with
      | .error e => .error e
      | .ok x =>
          match mapExcept f cs with
          | .error e => .error e
          | .ok xs => .ok (x :: xs)

/-- `BlockAffineCipher.encrypt(keya, keyb)`: per-symbol affine map, then
`self.text = ''.join(result)`. -/
def BlockAffineCipher.encrypt (s : BlockAffineCipher) (keya keyb : Int) :
    Except PyErr BlockAffineCipher :=
  match mapExcept (affEncChar s.alpha s.modulo keya keyb) s.text with
  | .error e => .error e
  | .ok t => .ok { s with text := t }

/-- `BlockAffineCipher.decrypt(keya, keyb)`: per-symbol inverse affine map
(recomputing the modular inverse for each symbol), then
`self.text = ''.join(result)`. -/
def BlockAffineCipher.decrypt (s : BlockAffineCipher) (keya keyb : Int) :
    Except PyErr BlockAffineCipher :=
  match mapExcept (affDecChar s.alpha s.modulo keya keyb) s.text with
  | .error e => .error e
  | .ok t => .ok { s with text := t }

/-- Per-character roundtrip check: encrypting `c` under key symbol `k` and
decrypting the result yields exactly the fragment `[c]`. -/
def rtOK (table : List (List Nat)) (c k : Nat) : Bool :=
  match vigEncChar table c k with
  | .ok x =>
      match vigDecChar table x k with
      | .ok l => l == [c]
      | .error _ => false
  | .error _ => false

/-- Per-character decrypt check: decrypting any alphabet character under an
alphabet key symbol succeeds with a fragment of length exactly 1. -/
def decSingOK (table : List (List Nat)) (c k : Nat) : Bool :=
  match vigDecChar table c k with
  | .ok l => l.length == 1
  | .error _ => false

/-- The value of a successful key expansion: `key[i % len(key)]` for each
`i in range(L)`. -/
def ekList (full : Bool) (key : List Nat) (L : Nat) : List Nat :=
  (List.range L).map (fun i => (pyNormalize full key).getD (i % (pyNormalize full key).length) 0)

/-- The rotation form of the substitution table: row `r` is the alphabet
rotated left by `r` positions.  Proved equal to the sorted table built by
the constructor. -/
def rotTable (A : List Nat) : List (List Nat) :=
  (List.range A.length).map (fun r => A.drop r ++ A.take r)

theorem tableEqU : vigTable false = rotTable u_alpha := by decide

set_option maxHeartbeats 1000000 in
theorem tableEqUL : vigTable true = rotTable ul_alpha := by decide

theorem rotTable_length (A : List Nat) : (rotTable A).length = A.length := by
  simp [rotTable]

theorem rotTable_getD (A : List Nat) (r : Nat) (hr : r < A.length) :
    (rotTable A).getD r [] = A.drop r ++ A.take r := by
  have h1 : r < (rotTable A).length := by rw [rotTable_length]; exact hr
  rw [List.getD_eq_getElem _ _ h1]
  simp [rotTable]

theorem rot_getD (A : List Nat) (r i : Nat) (hr : r < A.length) (hi : i < A.length) :
    (A.drop r ++ A.take r).getD i 0 = A.getD ((r + i) % A.length) 0 := by
  have hn : 0 < A.length := by omega
  have hdlen : (A.drop r).length = A.length - r := by simp [List.length_drop]
  by_cases hcase : i < A.length - r
  · have hidrop : i < (A.drop r).length := by omega
    have hri : r + i < A.length := by omega
    rw [List.getD_append _ _ _ _ hidrop, Nat.mod_eq_of_lt hri,
      List.getD_eq_getElem _ _ hidrop, List.getElem_drop,
      List.getD_eq_getElem _ _ hri]
  · have hge : (A.drop r).length ≤ i := by omega
    have hitake2 : i - (A.drop r).length < (A.take r).length := by
      simp [List.length_take]
      omega
    have hmod : (r + i) % A.length = i - (A.drop r).length := by
      have h1 : A.length ≤ r + i := by omega
      rw [Nat.mod_eq_sub_mod h1, Nat.mod_eq_of_lt (by omega)]
      omega
    rw [List.getD_append_right _ _ _ _ hge, hmod,
      List.getD_eq_getElem _ _ hitake2, List.getElem_take,
      List.getD_eq_getElem _ _ (by omega : i - (A.drop r).length < A.length)]

theorem rot_head (A : List Nat) (r : Nat) (hr : r < A.length) :
    (A.drop r ++ A.take r).getD 0 0 = A.getD r 0 := by
  rw [rot_getD A r 0 hr (by omega), Nat.add_zero, Nat.mod_eq_of_lt hr]

theorem rot_perm (A : List Nat) (r : Nat) :
    (A.drop r ++ A.take r).Perm A := by
  have h := @List.perm_append_comm Nat (A.drop r) (A.take r)
  rw [List.take_append_drop] at h
  exact h

theorem vigRowIdx_no_match (k : Nat) :
    ∀ (rows : List (List Nat)) (j acc : Nat),
      (∀ row ∈ rows, row.getD 0 0 ≠ k) → vigRowIdx rows k j acc = acc
  | [], _, _, _ => rfl
  | row :: rest, j, acc, h => by
      unfold vigRowIdx
      rw [if_neg (h row (List.mem_cons_self _ _))]
      exact vigRowIdx_no_match k rest (j + 1) acc
        (fun q hq => h q (List.mem_cons_of_mem _ hq))

theorem vigRowIdx_unique (k : Nat) :
    ∀ (rows : List (List Nat)) (t : Nat), t < rows.length →
      (rows.getD t []).getD 0 0 = k →
      (∀ i, i < rows.length → i ≠ t → (rows.getD i []).getD 0 0 ≠ k) →
      ∀ j acc, vigRowIdx rows k j acc = j + t
  | [], t, ht, _, _ => by simp at ht
  | row :: rest, 0, ht, hhit, hmiss => by
      intro j acc
      unfold vigRowIdx
      have hh : row.getD 0 0 = k := hhit
      rw [if_pos hh]
      have hrest : ∀ q ∈ rest, q.getD 0 0 ≠ k := by
        intro q hq
        obtain ⟨i, hi, rfl⟩ := List.getElem_of_mem hq
        have h2 := hmiss (i + 1) (by simp; omega) (by omega)
        rw [List.getD_cons_succ, List.getD_eq_getElem _ _ hi] at h2
        exact h2
      rw [vigRowIdx_no_match k rest (j + 1) j hrest]
      omega
  | row :: rest, t + 1, ht, hhit, hmiss => by
      intro j acc
      unfold vigRowIdx
      have hh : row.getD 0 0 ≠ k := by
        have h2 := hmiss 0 (by omega) (by omega)
        simpa using h2
      rw [if_neg hh]
      rw [List.getD_cons_succ] at hhit
      have hrec := vigRowIdx_unique k rest t (by simp at ht; omega) hhit
        (fun i hi hne => by
          have h2 := hmiss (i + 1) (by simp; omega) (by omega)
          rw [List.getD_cons_succ] at h2
          exact h2)
      rw [hrec (j + 1) acc]
      omega

theorem rot_length (A : List Nat) (r : Nat) (hr : r ≤ A.length) :
    (A.drop r ++ A.take r).length = A.length := by
  simp [List.length_append, List.length_drop, List.length_take]
  omega

theorem go_no_match (c k : Nat) (t0 : List Nat) :
    ∀ (rows : List (List Nat)) (acc : List Nat),
      (∀ row ∈ rows, row.getD 0 0 ≠ k) → vigDecChar.go c k t0 rows acc = .ok acc
  | [], acc, _ => rfl
  | row :: rest, acc, h => by
      unfold vigDecChar.go
      rw [if_neg (h row (List.mem_cons_self _ _))]
      exact go_no_match c k t0 rest acc (fun q hq => h q (List.mem_cons_of_mem _ hq))

theorem go_unique (c k : Nat) (t0 : List Nat) :
    ∀ (rows : List (List Nat)) (t : Nat), t < rows.length →
      (rows.getD t []).getD 0 0 = k →
      (∀ i, i < rows.length → i ≠ t → (rows.getD i []).getD 0 0 ≠ k) →
      c ∈ rows.getD t [] →
      ∀ acc, vigDecChar.go c k t0 rows acc =
        .ok [t0.getD ((rows.getD t []).indexOf c) 0]
  | [], t, ht, _, _, _ => by simp at ht
  | row :: rest, 0, ht, hhit, hmiss, hc => by
      intro acc
      unfold vigDecChar.go
      rw [if_pos (show row.getD 0 0 = k from hhit)]
      have hcrow : c ∈ row := hc
      have hpi : pyIndex row c = .ok (row.indexOf c) := by
        unfold pyIndex
        rw [if_pos hcrow]
      simp only [hpi]
      have hrest : ∀ q ∈ rest, q.getD 0 0 ≠ k := by
        intro q hq
        obtain ⟨i, hi, rfl⟩ := List.getElem_of_mem hq
        have h2 := hmiss (i + 1) (by simp; omega) (by omega)
        rw [List.getD_cons_succ, List.getD_eq_getElem _ _ hi] at h2
        exact h2
      rw [go_no_match c k t0 rest _ hrest]
      rfl
  | row :: rest, t + 1, ht, hhit, hmiss, hc => by
      intro acc
      unfold vigDecChar.go
      have hh : row.getD 0 0 ≠ k := by
        have h2 := hmiss 0 (by omega) (by omega)
        simpa using h2
      rw [if_neg hh]
      rw [List.getD_cons_succ] at hhit hc ⊢
      exact go_unique c k t0 rest t (by simp at ht; omega) hhit
        (fun i hi hne => by
          have h2 := hmiss (i + 1) (by simp; omega) (by omega)
          rw [List.getD_cons_succ] at h2
          exact h2) hc acc

theorem vigEncChar_rot (A : List Nat) (hnd : A.Nodup) (c k : Nat)
    (hc : c ∈ A) (hk : k ∈ A) :
    vigEncChar (rotTable A) c k =
      .ok (A.getD ((A.indexOf k + A.indexOf c) % A.length) 0) := by
  have hci : A.indexOf c < A.length := List.indexOf_lt_length.mpr hc
  have hki : A.indexOf k < A.length := List.indexOf_lt_length.mpr hk
  have hn : 0 < A.length := by omega
  have ht0 : (rotTable A).getD 0 [] = A := by
    rw [rotTable_getD A 0 hn]
    simp
  unfold vigEncChar
  rw [ht0]
  have hpi : pyIndex A c = .ok (A.indexOf c) := by
    unfold pyIndex
    rw [if_pos hc]
  simp only [hpi]
  have hri : vigRowIdx (rotTable A) k 0 0 = A.indexOf k := by
    have := vigRowIdx_unique k (rotTable A) (A.indexOf k)
      (by rw [rotTable_length]; exact hki)
      (by
        rw [rotTable_getD A _ hki, rot_head A _ hki,
          List.getD_eq_getElem _ _ hki]
        exact List.getElem_indexOf hki)
      (fun i hi hne => by
        rw [rotTable_length] at hi
        rw [rotTable_getD A _ hi, rot_head A _ hi, List.getD_eq_getElem _ _ hi]
        intro heq
        apply hne
        have hkk : A[A.indexOf k] = k := List.getElem_indexOf hki
        exact (@List.Nodup.getElem_inj_iff Nat A hnd i hi _ hki).mp (by rw [heq, hkk]))
      0 0
    simpa using this
  rw [hri, rotTable_getD A _ hki, rot_getD A _ _ hki hci]

theorem vigDecChar_rot (A : List Nat) (hnd : A.Nodup) (c k : Nat)
    (hc : c ∈ A) (hk : k ∈ A) :
    vigDecChar (rotTable A) c k =
      .ok [A.getD ((A.drop (A.indexOf k) ++ A.take (A.indexOf k)).indexOf c) 0] := by
  have hki : A.indexOf k < A.length := List.indexOf_lt_length.mpr hk
  have hn : 0 < A.length := by omega
  have ht0 : (rotTable A).getD 0 [] = A := by
    rw [rotTable_getD A 0 hn]
    simp
  unfold vigDecChar
  rw [ht0]
  have hres := go_unique c k A (rotTable A) (A.indexOf k)
    (by rw [rotTable_length]; exact hki)
    (by
      rw [rotTable_getD A _ hki, rot_head A _ hki, List.getD_eq_getElem _ _ hki]
      exact List.getElem_indexOf hki)
    (fun i hi hne => by
      rw [rotTable_length] at hi
      rw [rotTable_getD A _ hi, rot_head A _ hi, List.getD_eq_getElem _ _ hi]
      intro heq
      apply hne
      have hkk : A[A.indexOf k] = k := List.getElem_indexOf hki
      exact (@List.Nodup.getElem_inj_iff Nat A hnd i hi _ hki).mp (by rw [heq, hkk]))
    (by
      rw [rotTable_getD A _ hki]
      exact (rot_perm A (A.indexOf k)).mem_iff.mpr hc)
    []
  rw [hres, rotTable_getD A _ hki]

theorem vigDecChar_inverts (A : List Nat) (hnd : A.Nodup) (c k : Nat)
    (hc : c ∈ A) (hk : k ∈ A) :
    vigDecChar (rotTable A) (A.getD ((A.indexOf k + A.indexOf c) % A.length) 0) k
      = .ok [c] := by
  have hci : A.indexOf c < A.length := List.indexOf_lt_length.mpr hc
  have hki : A.indexOf k < A.length := List.indexOf_lt_length.mpr hk
  have hn : 0 < A.length := by omega
  have hmix : (A.indexOf k + A.indexOf c) % A.length < A.length := Nat.mod_lt _ hn
  have hcget : A.getD ((A.indexOf k + A.indexOf c) % A.length) 0
      = A[(A.indexOf k + A.indexOf c) % A.length] := List.getD_eq_getElem _ _ hmix
  have hcmem : A.getD ((A.indexOf k + A.indexOf c) % A.length) 0 ∈ A := by
    rw [hcget]
    exact List.getElem_mem hmix
  rw [vigDecChar_rot A hnd _ k hcmem hk]
  have hrotnd : (A.drop (A.indexOf k) ++ A.take (A.indexOf k)).Nodup :=
    (rot_perm A (A.indexOf k)).nodup_iff.mpr hnd
  have hcilt : A.indexOf c < (A.drop (A.indexOf k) ++ A.take (A.indexOf k)).length := by
    rw [rot_length A _ (by omega)]
    exact hci
  have hval : (A.drop (A.indexOf k) ++ A.take (A.indexOf k))[A.indexOf c]
      = A.getD ((A.indexOf k + A.indexOf c) % A.length) 0 := by
    rw [← List.getD_eq_getElem _ _ hcilt]
    exact rot_getD A _ _ hki hci
  have hidx : (A.drop (A.indexOf k) ++ A.take (A.indexOf k)).indexOf
      (A.getD ((A.indexOf k + A.indexOf c) % A.length) 0) = A.indexOf c := by
    rw [← hval]
    exact List.indexOf_getElem hrotnd _ hcilt
  rw [hidx, List.getD_eq_getElem _ _ hci]
  rw [List.getElem_indexOf hci]

theorem u_alpha_nodup : u_alpha.Nodup := by decide

theorem ul_alpha_nodup : ul_alpha.Nodup := by decide

theorem alphaOf_nodup (full : Bool) : (alphaOf full).Nodup := by
  cases full with
  | false => exact u_alpha_nodup
  | true => exact ul_alpha_nodup

theorem vigTable_eq_rot (full : Bool) : vigTable full = rotTable (alphaOf full) := by
  cases full with
  | false => exact tableEqU
  | true => exact tableEqUL

theorem rt_all (full : Bool) :
    ∀ c ∈ alphaOf full, ∀ k ∈ alphaOf full, rtOK (vigTable full) c k = true := by
  intro c hc k hk
  unfold rtOK
  rw [vigTable_eq_rot full]
  simp only [vigEncChar_rot (alphaOf full) (alphaOf_nodup full) c k hc hk,
    vigDecChar_inverts (alphaOf full) (alphaOf_nodup full) c k hc hk]
  simp

theorem decSing_all (full : Bool) :
    ∀ c ∈ alphaOf full, ∀ k ∈ alphaOf full, decSingOK (vigTable full) c k = true := by
  intro c hc k hk
  unfold decSingOK
  rw [vigTable_eq_rot full]
  simp only [vigDecChar_rot (alphaOf full) (alphaOf_nodup full) c k hc hk]
  simp

theorem vig_rt_core (table : List (List Nat)) (A : List Nat)
    (h : ∀ c ∈ A, ∀ k ∈ A, rtOK table c k = true) :
    ∀ ps : List (Nat × Nat), (∀ p ∈ ps, p.1 ∈ A ∧ p.2 ∈ A) →
      ∃ ct, vigEncCore table ps = .ok ct ∧ ct.length = ps.length ∧
        vigDecCore table (ct.zip (ps.map Prod.snd)) = .ok (ps.map (fun p => [p.1])) := by
  intro ps
  induction ps with
  | nil => intro _; exact ⟨[], rfl, rfl, rfl⟩
  | cons p rest ih =>
    intro hmem
    obtain ⟨c, k⟩ := p
    have hc := (hmem (c, k) (List.mem_cons_self _ _)).1
    have hk := (hmem (c, k) (List.mem_cons_self _ _)).2
    obtain ⟨ct, hct, hlen, hdec⟩ := ih (fun q hq => hmem q (List.mem_cons_of_mem _ hq))
    have hrt := h c hc k hk
    unfold rtOK at hrt
    cases hE : vigEncChar table c k with
    | error e => rw [hE] at hrt; exact absurd hrt (by simp)
    | ok x =>
      simp only [hE] at hrt
      cases hD : vigDecChar table x k with
      | error e => simp only [hD] at hrt; exact Bool.noConfusion hrt
      | ok l =>
        simp only [hD] at hrt
        have hl : l = [c] := by simpa using hrt
        subst hl
        refine ⟨x :: ct, ?_, ?_, ?_⟩
        · simp only [vigEncCore, hE, hct]
        · simp [hlen]
        · have hz : (x :: ct).zip (List.map Prod.snd ((c, k) :: rest)) =
              (x, k) :: ct.zip (List.map Prod.snd rest) := rfl
          rw [hz]
          simp only [vigDecCore, hD, hdec]
          rfl

theorem vig_dec_core_len (table : List (List Nat)) (A : List Nat)
    (h : ∀ c ∈ A, ∀ k ∈ A, decSingOK table c k = true) :
    ∀ ps : List (Nat × Nat), (∀ p ∈ ps, p.1 ∈ A ∧ p.2 ∈ A) →
      ∃ frags, vigDecCore table ps = .ok frags ∧ frags.flatten.length = ps.length := by
  intro ps
  induction ps with
  | nil => intro _; exact ⟨[], rfl, rfl⟩
  | cons p rest ih =>
    intro hmem
    obtain ⟨c, k⟩ := p
    have hc := (hmem (c, k) (List.mem_cons_self _ _)).1
    have hk := (hmem (c, k) (List.mem_cons_self _ _)).2
    obtain ⟨frags, hfr, hlen⟩ := ih (fun q hq => hmem q (List.mem_cons_of_mem _ hq))
    have hd := h c hc k hk
    unfold decSingOK at hd
    cases hD : vigDecChar table c k with
    | error e => rw [hD] at hd; exact Bool.noConfusion hd
    | ok l =>
      simp only [hD] at hd
      refine ⟨l :: frags, ?_, ?_⟩
      · simp only [vigDecCore, hD, hfr]
      · simp only [List.flatten_cons, List.length_append, hlen, List.length_cons]
        have : l.length = 1 := by simpa using hd
        omega

theorem expand_eq_ok (full : Bool) (key : List Nat) (L : Nat)
    (h : pyNormalize full key ≠ []) :
    VigenereCipher.expand full key L = .ok (ekList full key L) := by
  unfold VigenereCipher.expand ekList
  have h0 : ¬ (pyNormalize full key).length = 0 := by
    simpa [List.length_eq_zero] using h
  simp [h0]

theorem ekList_length (full : Bool) (key : List Nat) (L : Nat) :
    (ekList full key L).length = L := by simp [ekList]

theorem ekList_mem (full : Bool) (key : List Nat) (L : Nat)
    (h : pyNormalize full key ≠ []) :
    ∀ e ∈ ekList full key L, e ∈ pyNormalize full key := by
  intro e he
  simp only [ekList, List.mem_map, List.mem_range] at he
  obtain ⟨i, _, rfl⟩ := he
  have hlen : 0 < (pyNormalize full key).length := List.length_pos.mpr h
  have hm : i % (pyNormalize full key).length < (pyNormalize full key).length :=
    Nat.mod_lt _ hlen
  rw [List.getD_eq_getElem _ _ hm]
  exact List.getElem_mem hm

theorem u_alpha_eq_range : u_alpha = List.range' 65 26 := by decide

theorem ul_alpha_eq_range : ul_alpha = List.range' 65 26 ++ List.range' 97 26 := by decide

theorem mem_u_alpha (c : Nat) : c ∈ u_alpha ↔ 65 ≤ c ∧ c < 91 := by
  rw [u_alpha_eq_range, List.mem_range'_1]

theorem mem_ul_alpha (c : Nat) : c ∈ ul_alpha ↔ (65 ≤ c ∧ c < 91) ∨ (97 ≤ c ∧ c < 123) := by
  rw [ul_alpha_eq_range, List.mem_append, List.mem_range'_1, List.mem_range'_1]

theorem alpha_isWordChar (full : Bool) (c : Nat) (h : c ∈ alphaOf full) :
    isWordChar c = true := by
  have hb : (65 ≤ c ∧ c < 91) ∨ (97 ≤ c ∧ c < 123) := by
    cases full with
    | false => exact Or.inl ((mem_u_alpha c).mp (by simpa [alphaOf] using h))
    | true => exact (mem_ul_alpha c).mp (by simpa [alphaOf] using h)
  simp only [isWordChar, Bool.or_eq_true, Bool.and_eq_true, decide_eq_true_eq,
    beq_iff_eq]
  omega

theorem u_alpha_pyUpper (c : Nat) (h : c ∈ u_alpha) : pyUpper c = c := by
  have hb := (mem_u_alpha c).mp h
  unfold pyUpper
  rw [if_neg]
  omega

theorem normalize_fixed (full : Bool) (T : List Nat)
    (h : ∀ c ∈ T, c ∈ alphaOf full) : pyNormalize full T = T := by
  have hf : T.filter isWordChar = T :=
    List.filter_eq_self.mpr (fun a ha => alpha_isWordChar full a (h a ha))
  cases full with
  | true => simp [pyNormalize, hf]
  | false =>
    simp only [pyNormalize, hf, Bool.false_eq_true, if_false]
    have hmap : List.map pyUpper T = List.map id T :=
      List.map_congr_left (fun a ha => u_alpha_pyUpper a (by simpa [alphaOf] using h a ha))
    rw [hmap, List.map_id]

theorem flatten_map_singleton {α β : Type} (f : α → β) :
    ∀ l : List α, (l.map (fun a => [f a])).flatten = l.map f
  | [] => rfl
  | a :: l => by simp [flatten_map_singleton f l]

theorem vig_roundtrip_general (full : Bool)
    (hrt : ∀ c ∈ alphaOf full, ∀ k ∈ alphaOf full, rtOK (vigTable full) c k = true)
    (T key : List Nat)
    (hT : ∀ c ∈ T, c ∈ alphaOf full)
    (hk : pyNormalize full key ≠ [])
    (hkA : ∀ c ∈ pyNormalize full key, c ∈ alphaOf full) :
    ∃ s1 s2, (VigenereCipher.init T full).encrypt key = .ok s1 ∧
      VigenereCipher.decrypt s1 key = .ok s2 ∧ s2.text = T := by
  have hTn : pyNormalize full T = T := normalize_fixed full T hT
  have heklen : (ekList full key T.length).length = T.length := ekList_length full key T.length
  have hpairs : ∀ p ∈ T.zip (ekList full key T.length),
      p.1 ∈ alphaOf full ∧ p.2 ∈ alphaOf full := by
    intro p hp
    obtain ⟨h1, h2⟩ := List.of_mem_zip (a := p.1) (b := p.2) (by simpa using hp)
    exact ⟨hT _ h1, hkA _ (ekList_mem full key T.length hk _ h2)⟩
  obtain ⟨ct, hct, hclen, hdec⟩ :=
    vig_rt_core (vigTable full) (alphaOf full) hrt (T.zip (ekList full key T.length)) hpairs
  have hziplen : (T.zip (ekList full key T.length)).length = T.length := by
    rw [List.length_zip, heklen, Nat.min_self]
  have hctlen : ct.length = T.length := by rw [hclen, hziplen]
  have hsnd : (T.zip (ekList full key T.length)).map Prod.snd = ekList full key T.length :=
    List.map_snd_zip _ _ (le_of_eq heklen)
  have hfst : (T.zip (ekList full key T.length)).map Prod.fst = T :=
    List.map_fst_zip _ _ (le_of_eq heklen.symm)
  refine ⟨⟨full, ct⟩, ⟨full, T⟩, ?_, ?_, rfl⟩
  · unfold VigenereCipher.encrypt VigenereCipher.init
    simp only [hTn, expand_eq_ok full key T.length hk, hct]
  · unfold VigenereCipher.decrypt
    simp only [hctlen, expand_eq_ok full key T.length hk]
    rw [hsnd] at hdec
    simp only [hdec]
    rw [show (List.map (fun p => [p.1]) (T.zip (ekList full key T.length))).flatten
        = T from by rw [flatten_map_singleton Prod.fst, hfst]]

theorem mapExcept_ok (f : Nat → Except PyErr Nat) (g : Nat → Nat) :
    ∀ l : List Nat, (∀ c ∈ l, f c = .ok (g c)) → mapExcept f l = .ok (l.map g)
  | [], _ => rfl
  | c :: cs, h => by
      have hc := h c (List.mem_cons_self _ _)
      have hcs := mapExcept_ok f g cs (fun x hx => h x (List.mem_cons_of_mem _ hx))
      simp only [mapExcept, hc, hcs, List.map_cons]

theorem aff_encChar_ok (A : List Nat) (m a b : Int) (c : Nat)
    (h1 : 0 < m) (h2 : m ≤ (A.length : Int)) :
    affEncChar A m a b c = .ok (A.getD ((a * pyFind A c + b).fmod m).toNat 0) := by
  unfold affEncChar
  have hpm : pyMod (a * pyFind A c + b) m = .ok ((a * pyFind A c + b).fmod m) := by
    unfold pyMod
    rw [if_neg (by omega)]
  simp only [hpm]
  have hge : 0 ≤ (a * pyFind A c + b).fmod m := Int.fmod_nonneg' _ h1
  have hlt : (a * pyFind A c + b).fmod m < m := Int.fmod_lt_of_pos _ h1
  unfold pyAt
  rw [if_pos hge, if_pos (by omega)]

theorem exists_inverse (a m : Int) (hm : 2 ≤ m) (h : Int.gcd a m = 1) :
    ∃ i : Nat, 1 ≤ i ∧ (i : Int) < m ∧ (a * i) % m = 1 := by
  have hb : (Int.gcd a m : Int) = a * Int.gcdA a m + m * Int.gcdB a m :=
    Int.gcd_eq_gcd_ab a m
  rw [h] at hb
  norm_num at hb
  have hm0 : (0 : Int) < m := by omega
  have hi0 : 0 ≤ Int.gcdA a m % m := Int.emod_nonneg _ (by omega)
  have him : Int.gcdA a m % m < m := Int.emod_lt_of_pos _ hm0
  have key : (a * (Int.gcdA a m % m)) % m = 1 := by
    have e1 : a * (Int.gcdA a m % m) ≡ a * Int.gcdA a m [ZMOD m] :=
      Int.ModEq.mul_left a (Int.emod_emod_of_dvd _ dvd_rfl)
    have e2 : a * Int.gcdA a m ≡ 1 [ZMOD m] := by
      have h12 : (1 : Int) % m = (a * Int.gcdA a m) % m := by
        rw [hb, Int.add_mul_emod_self_left]
      exact (Int.ModEq.symm h12)
    have e3 := e1.trans e2
    unfold Int.ModEq at e3
    rw [e3, Int.emod_eq_of_lt (by omega) (by omega)]
  have hne : Int.gcdA a m % m ≠ 0 := by
    intro h0
    rw [h0, mul_zero, Int.zero_emod] at key
    exact absurd key (by omega)
  refine ⟨(Int.gcdA a m % m).toNat, by omega, ?_, ?_⟩
  · rw [Int.toNat_of_nonneg hi0]; exact him
  · rw [Int.toNat_of_nonneg hi0]; exact key

theorem get_inverse_ok (a m : Int) (hm : 2 ≤ m) (h : Int.gcd a m = 1) :
    ∃ i : Int, get_inverse a m = .ok i ∧ 1 ≤ i ∧ i < m ∧ (a * i) % m = 1 := by
  obtain ⟨i0, hi1, hi2, hi3⟩ := exists_inverse a m hm h
  have hmtoNat : ((m.toNat : Int)) = m := Int.toNat_of_nonneg (by omega)
  have hmem : i0 ∈ List.range' 1 (m.toNat - 1) := by
    rw [List.mem_range'_1]
    omega
  have hsome : ((List.range' 1 (m.toNat - 1)).find?
      (fun (i : Nat) => (a * (i : Int)).fmod m == 1)).isSome := by
    rw [List.find?_isSome]
    refine ⟨i0, hmem, ?_⟩
    rw [Int.fmod_eq_emod _ (by omega)]
    simpa using hi3
  obtain ⟨j, hj⟩ := Option.isSome_iff_exists.mp hsome
  have hpj := List.find?_some hj
  have hjm := List.mem_of_find?_eq_some hj
  rw [List.mem_range'_1] at hjm
  rw [Int.fmod_eq_emod _ (by omega)] at hpj
  refine ⟨(j : Int), ?_, by omega, by omega, by simpa using hpj⟩
  unfold get_inverse
  rw [if_pos h, hj]

theorem dec_index_eq (m a b inv n : Int) (hm : 1 < m)
    (hinv : (a * inv) % m = 1) (hn0 : 0 ≤ n) (hnm : n < m) :
    (inv * ((a * n + b) % m - b)) % m = n := by
  have e1 : inv * ((a * n + b) % m - b) ≡ inv * ((a * n + b) - b) [ZMOD m] :=
    Int.ModEq.mul_left inv (Int.ModEq.sub_right b (Int.emod_emod_of_dvd _ dvd_rfl))
  have e2 : inv * ((a * n + b) - b) = (a * inv) * n := by ring
  have e3 : (a * inv) * n ≡ 1 * n [ZMOD m] := by
    apply Int.ModEq.mul_right n
    unfold Int.ModEq
    rw [hinv, Int.emod_eq_of_lt (by omega) (by omega)]
  have e4 := (e1.trans (by rw [e2])).trans e3
  unfold Int.ModEq at e4
  rw [e4, one_mul, Int.emod_eq_of_lt hn0 hnm]

theorem mapExcept_inverts (f1 f2 : Nat → Except PyErr Nat) :
    ∀ l : List Nat, (∀ c ∈ l, ∃ x, f1 c = .ok x ∧ f2 x = .ok c) →
      ∃ l', mapExcept f1 l = .ok l' ∧ mapExcept f2 l' = .ok l
  | [], _ => ⟨[], rfl, rfl⟩
  | c :: cs, h => by
      obtain ⟨x, hx1, hx2⟩ := h c (List.mem_cons_self _ _)
      obtain ⟨l', hl1, hl2⟩ :=
        mapExcept_inverts f1 f2 cs (fun d hd => h d (List.mem_cons_of_mem _ hd))
      exact ⟨x :: l', by simp only [mapExcept, hx1, hl1], by simp only [mapExcept, hx2, hl2]⟩

theorem pyFind_mem (A : List Nat) (c : Nat) (hc : c ∈ A) :
    pyFind A c = (A.indexOf c : Int) := by
  unfold pyFind; rw [if_pos hc]

theorem aff_char_roundtrip (A : List Nat) (hnd : A.Nodup) (a b : Int)
    (hm2 : 2 ≤ A.length) (hg : Int.gcd a ((A.length : Nat) : Int) = 1)
    (c : Nat) (hc : c ∈ A) :
    ∃ x, affEncChar A (A.length : Int) a b c = .ok x ∧
         affDecChar A (A.length : Int) a b x = .ok c := by
  have hm0 : (0 : Int) < (A.length : Int) := by exact_mod_cast (by omega : 0 < A.length)
  have hmi2 : (2 : Int) ≤ (A.length : Int) := by exact_mod_cast hm2
  have henc := aff_encChar_ok A (A.length : Int) a b c hm0 (le_refl _)
  have hfind : pyFind A c = (A.indexOf c : Int) := pyFind_mem A c hc
  have hidx : A.indexOf c < A.length := List.indexOf_lt_length.mpr hc
  have hn'0 : 0 ≤ (a * pyFind A c + b).fmod (A.length : Int) :=
    Int.fmod_nonneg' _ hm0
  have hn'm : (a * pyFind A c + b).fmod (A.length : Int) < (A.length : Int) :=
    Int.fmod_lt_of_pos _ hm0
  have hn'len : ((a * pyFind A c + b).fmod (A.length : Int)).toNat < A.length := by omega
  have hgetD : A.getD ((a * pyFind A c + b).fmod (A.length : Int)).toNat 0 =
      A[((a * pyFind A c + b).fmod (A.length : Int)).toNat] :=
    List.getD_eq_getElem _ _ hn'len
  refine ⟨A.getD ((a * pyFind A c + b).fmod (A.length : Int)).toNat 0, henc, ?_⟩
  have hc'mem : A.getD ((a * pyFind A c + b).fmod (A.length : Int)).toNat 0 ∈ A := by
    rw [hgetD]; exact List.getElem_mem hn'len
  have hfind' : pyFind A (A.getD ((a * pyFind A c + b).fmod (A.length : Int)).toNat 0) =
      (((a * pyFind A c + b).fmod (A.length : Int)).toNat : Int) := by
    rw [pyFind_mem A _ hc'mem, hgetD, List.indexOf_getElem hnd]
  obtain ⟨inv, hginv, hinv1, hinvm, hinvmod⟩ :=
    get_inverse_ok a (A.length : Int) hmi2 hg
  unfold affDecChar
  simp only [hginv, hfind']
  have harith : (inv * ((((a * pyFind A c + b).fmod (A.length : Int)).toNat : Int) - b)).fmod
      (A.length : Int) = (A.indexOf c : Int) := by
    rw [Int.toNat_of_nonneg hn'0]
    rw [Int.fmod_eq_emod _ (by omega), Int.fmod_eq_emod _ (by omega)]
    rw [hfind]
    exact dec_index_eq (A.length : Int) a b inv (A.indexOf c : Int) (by omega)
      hinvmod (by exact_mod_cast Nat.zero_le _) (by exact_mod_cast hidx)
  have hpm : pyMod (inv * ((((a * pyFind A c + b).fmod (A.length : Int)).toNat : Int) - b))
      (A.length : Int) = .ok (A.indexOf c : Int) := by
    unfold pyMod
    rw [if_neg (by omega), harith]
  simp only [hpm]
  unfold pyAt
  rw [if_pos (by exact_mod_cast Nat.zero_le _), if_pos (by exact_mod_cast hidx)]
  rw [Int.toNat_ofNat, List.getD_eq_getElem _ _ hidx]
  exact congrArg Except.ok (List.getElem_indexOf hidx)

theorem alphaOf_len2 (full : Bool) : 2 ≤ (alphaOf full).length := by
  cases full <;> decide

theorem aff_encrypt_total (s : BlockAffineCipher) (a b : Int)
    (h1 : 0 < s.modulo) (h2 : s.modulo ≤ (s.alpha.length : Int)) :
    s.encrypt a b = .ok ⟨s.block, s.modulo, s.full,
      s.text.map (fun c => s.alpha.getD ((a * pyFind s.alpha c + b).fmod s.modulo).toNat 0)⟩ := by
  unfold BlockAffineCipher.encrypt
  rw [mapExcept_ok _ _ s.text (fun c _ => aff_encChar_ok s.alpha s.modulo a b c h1 h2)]

theorem aff_decrypt_err (s : BlockAffineCipher) (a b : Int)
    (hg : Int.gcd a s.modulo ≠ 1) (ht : s.text ≠ []) :
    s.decrypt a b = .error .exception := by
  unfold BlockAffineCipher.decrypt
  cases hc : s.text with
  | nil => exact absurd hc ht
  | cons c cs =>
    have hge : get_inverse a s.modulo = .error .exception := by
      unfold get_inverse
      rw [if_neg hg]
    have hdc : affDecChar s.alpha s.modulo a b c = .error .exception := by
      unfold affDecChar
      simp only [hge]
    simp only [mapExcept, hdc]

theorem aff_decChar_ok_of_coprime (A : List Nat) (m a b : Int)
    (hm2 : 2 ≤ m) (hmle : m ≤ (A.length : Int)) (hg : Int.gcd a m = 1) (c : Nat) :
    ∃ x, affDecChar A m a b c = .ok x := by
  obtain ⟨inv, hginv, _, _, _⟩ := get_inverse_ok a m hm2 hg
  unfold affDecChar
  simp only [hginv]
  have hnum0 : 0 ≤ (inv * (pyFind A c - b)).fmod m := Int.fmod_nonneg' _ (by omega)
  have hnumm : (inv * (pyFind A c - b)).fmod m < m := Int.fmod_lt_of_pos _ (by omega)
  have hpm : pyMod (inv * (pyFind A c - b)) m = .ok ((inv * (pyFind A c - b)).fmod m) := by
    unfold pyMod
    rw [if_neg (by omega)]
  simp only [hpm]
  unfold pyAt
  rw [if_pos hnum0, if_pos (by omega)]
  exact ⟨_, rfl⟩

theorem aff_decrypt_ok_of_coprime (s : BlockAffineCipher) (a b : Int)
    (hm2 : 2 ≤ s.modulo) (hmle : s.modulo ≤ (s.alpha.length : Int))
    (hg : Int.gcd a s.modulo = 1) :
    ∃ s', s.decrypt a b = .ok s' := by
  unfold BlockAffineCipher.decrypt
  have : ∀ l : List Nat, ∃ l', mapExcept (affDecChar s.alpha s.modulo a b) l = .ok l' := by
    intro l
    induction l with
    | nil => exact ⟨[], rfl⟩
    | cons c cs ih =>
      obtain ⟨x, hx⟩ := aff_decChar_ok_of_coprime s.alpha s.modulo a b hm2 hmle hg c
      obtain ⟨l', hl'⟩ := ih
      exact ⟨x :: l', by simp only [mapExcept, hx, hl']⟩
  obtain ⟨l', hl'⟩ := this s.text
  exact ⟨_, by rw [hl']⟩

theorem aff_roundtrip_general (T : List Nat) (full : Bool) (a b : Int)
    (hT : ∀ c ∈ T, c ∈ alphaOf full)
    (hpad : T.length % 2 = 0)
    (hg : Int.gcd a (((alphaOf full).length : Nat) : Int) = 1) :
    ∃ s1 s2,
      (BlockAffineCipher.init T (((alphaOf full).length : Nat) : Int) full).encrypt a b = .ok s1 ∧
      s1.decrypt a b = .ok s2 ∧ s2.text = T := by
  have hTn : pyNormalize full T = T := normalize_fixed full T hT
  have hs : BlockAffineCipher.init T (((alphaOf full).length : Nat) : Int) full =
      ⟨2, ((alphaOf full).length : Int), full, T⟩ := by
    unfold BlockAffineCipher.init
    simp only [hTn, hpad, if_pos]
  obtain ⟨ct, henc, hdec⟩ :=
    mapExcept_inverts (affEncChar (alphaOf full) ((alphaOf full).length : Int) a b)
      (affDecChar (alphaOf full) ((alphaOf full).length : Int) a b) T
      (fun c hc => aff_char_roundtrip (alphaOf full) (alphaOf_nodup full) a b
        (alphaOf_len2 full) hg c (hT c hc))
  refine ⟨⟨2, ((alphaOf full).length : Int), full, ct⟩,
          ⟨2, ((alphaOf full).length : Int), full, T⟩, ?_, ?_, rfl⟩
  · rw [hs]
    unfold BlockAffineCipher.encrypt
    simp only [BlockAffineCipher.alpha] at henc ⊢
    simp only [henc]
  · unfold BlockAffineCipher.decrypt
    simp only [BlockAffineCipher.alpha]
    simp only [hdec]

theorem vig_len_general (s : VigenereCipher) (key : List Nat)
    (hT : ∀ c ∈ s.text, c ∈ alphaOf s.full)
    (hk : pyNormalize s.full key ≠ [])
    (hkA : ∀ c ∈ pyNormalize s.full key, c ∈ alphaOf s.full) :
    (∃ s1, s.encrypt key = .ok s1 ∧ s1.text.length = s.text.length) ∧
    (∃ s2, s.decrypt key = .ok s2 ∧ s2.text.length = s.text.length) := by
  have heklen : (ekList s.full key s.text.length).length = s.text.length :=
    ekList_length s.full key s.text.length
  have hpairs : ∀ p ∈ s.text.zip (ekList s.full key s.text.length),
      p.1 ∈ alphaOf s.full ∧ p.2 ∈ alphaOf s.full := by
    intro p hp
    obtain ⟨h1, h2⟩ := List.of_mem_zip (a := p.1) (b := p.2) (by simpa using hp)
    exact ⟨hT _ h1, hkA _ (ekList_mem s.full key s.text.length hk _ h2)⟩
  have hziplen : (s.text.zip (ekList s.full key s.text.length)).length = s.text.length := by
    rw [List.length_zip, heklen, Nat.min_self]
  constructor
  · obtain ⟨ct, hct, hclen, _⟩ :=
      vig_rt_core (vigTable s.full) (alphaOf s.full) (rt_all s.full)
        (s.text.zip (ekList s.full key s.text.length)) hpairs
    refine ⟨⟨s.full, ct⟩, ?_, by rw [hclen, hziplen]⟩
    unfold VigenereCipher.encrypt
    simp only [expand_eq_ok s.full key s.text.length hk, hct]
  · obtain ⟨frags, hfr, hflen⟩ :=
      vig_dec_core_len (vigTable s.full) (alphaOf s.full) (decSing_all s.full)
        (s.text.zip (ekList s.full key s.text.length)) hpairs
    refine ⟨⟨s.full, frags.flatten⟩, ?_, by rw [hflen, hziplen]⟩
    unfold VigenereCipher.decrypt
    simp only [expand_eq_ok s.full key s.text.length hk, hfr]

/-- C1 counterexample: the claim quantifies over all normalized text and all
keys with non-empty normalization.  The key `"1"` survives normalization
(digits are word characters) but matches no table row, so every decrypt
fragment stays empty: encrypt leaves `"AB"` unchanged and decrypt returns
the empty string, which differs from `T`. -/
theorem vigenere_digit_key_roundtrip_cex :
    pyNormalize false [65, 66] = [65, 66] ∧
    pyNormalize false [49] ≠ [] ∧
    (VigenereCipher.init [65, 66] false).encrypt [49] = .ok ⟨false, [65, 66]⟩ ∧
    (⟨false, [65, 66]⟩ : VigenereCipher).decrypt [49] = .ok ⟨false, []⟩ ∧
    ([] : List Nat) ≠ [65, 66] :=
  ⟨rfl, by decide, rfl, rfl, by decide⟩

/-- C1 (amended): for text and key made of symbols of the active alphabet
(and a key with non-empty normalization), constructing a `VigenereCipher`
from `T`, encrypting and then decrypting with the same key returns a cipher
holding exactly `T`. -/
theorem vigenere_roundtrip_alpha (full : Bool) (T key : List Nat)
    (hT : ∀ c ∈ T, c ∈ alphaOf full)
    (hk : pyNormalize full key ≠ [])
    (hkA : ∀ c ∈ pyNormalize full key, c ∈ alphaOf full) :
    ∃ s1 s2, (VigenereCipher.init T full).encrypt key = .ok s1 ∧
      s1.decrypt key = .ok s2 ∧ s2.text = T :=
  vig_roundtrip_general full (rt_all full) T key hT hk hkA

/-- C1 witness: the roundtrip at text `"ATTACKATDAWN"` and key `"LEMON"`. -/
theorem vigenere_roundtrip_alpha_witness :
    (∀ c ∈ [65, 84, 84, 65, 67, 75, 65, 84, 68, 65, 87, 78], c ∈ alphaOf false) ∧
    pyNormalize false [76, 69, 77, 79, 78] ≠ [] ∧
    (∀ c ∈ pyNormalize false [76, 69, 77, 79, 78], c ∈ alphaOf false) ∧
    (∃ s1 s2,
      (VigenereCipher.init [65, 84, 84, 65, 67, 75, 65, 84, 68, 65, 87, 78] false).encrypt
        [76, 69, 77, 79, 78] = .ok s1 ∧
      s1.decrypt [76, 69, 77, 79, 78] = .ok s2 ∧
      s2.text = [65, 84, 84, 65, 67, 75, 65, 84, 68, 65, 87, 78]) :=
  ⟨by decide, by decide, by decide,
   vigenere_roundtrip_alpha false _ _ (by decide) (by decide) (by decide)⟩

/-- C2 counterexample: `"11"` is normalized (digits are word characters) and
block-padded (even length), the modulus 26 equals the alphabet size and
`a = 1` is coprime to it, yet `str.find` maps each `'1'` to index `-1`, so
encryption collapses both to `'Z'` and decryption returns `"ZZ" ≠ "11"`. -/
theorem affine_digit_roundtrip_cex :
    pyNormalize false [49, 49] = [49, 49] ∧
    [49, 49].length % 2 = 0 ∧
    Int.gcd 1 26 = 1 ∧
    (BlockAffineCipher.init [49, 49] 26 false).encrypt 1 0 = .ok ⟨2, 26, false, [90, 90]⟩ ∧
    (⟨2, 26, false, [90, 90]⟩ : BlockAffineCipher).decrypt 1 0 = .ok ⟨2, 26, false, [90, 90]⟩ ∧
    ([90, 90] : List Nat) ≠ [49, 49] :=
  ⟨rfl, rfl, rfl, rfl, rfl, by decide⟩

/-- C2 (amended): for block-padded text made of symbols of the active
alphabet, modulus equal to the alphabet size, multiplier coprime to it and
any integer offset, affine encrypt followed by affine decrypt restores the
held text exactly. -/
theorem affine_roundtrip_alpha (full : Bool) (T : List Nat) (a b : Int)
    (hT : ∀ c ∈ T, c ∈ alphaOf full)
    (hpad : T.length % 2 = 0)
    (hg : Int.gcd a (((alphaOf full).length : Nat) : Int) = 1) :
    ∃ s1 s2,
      (BlockAffineCipher.init T (((alphaOf full).length : Nat) : Int) full).encrypt a b
        = .ok s1 ∧
      s1.decrypt a b = .ok s2 ∧ s2.text = T :=
  aff_roundtrip_general T full a b hT hpad hg

/-- C2 witness: the affine roundtrip at text `"LXFO"`, modulus 26,
`a = 3`, `b = 5`. -/
theorem affine_roundtrip_alpha_witness :
    (∀ c ∈ [76, 88, 70, 79], c ∈ alphaOf false) ∧
    [76, 88, 70, 79].length % 2 = 0 ∧
    Int.gcd 3 (((alphaOf false).length : Nat) : Int) = 1 ∧
    (∃ s1 s2,
      (BlockAffineCipher.init [76, 88, 70, 79] (((alphaOf false).length : Nat) : Int)
        false).encrypt 3 5 = .ok s1 ∧
      s1.decrypt 3 5 = .ok s2 ∧ s2.text = [76, 88, 70, 79]) :=
  ⟨by decide, by decide, by decide,
   affine_roundtrip_alpha false [76, 88, 70, 79] 3 5 (by decide) (by decide) (by decide)⟩

/-- C3 counterexample: the raw input `"1"` is a word character, so
normalization keeps it, and `'1'` belongs to neither alphabet. -/
theorem normalized_digit_not_in_alphabet_cex :
    pyNormalize false [49] = [49] ∧ 49 ∉ alphaOf false ∧
    pyNormalize true [49] = [49] ∧ 49 ∉ alphaOf true :=
  ⟨rfl, by decide, rfl, by decide⟩

/-- C3 (amended): for raw input whose characters are ASCII letters or
non-word characters (no digits, underscores or other word characters),
every character of the normalized text belongs to the active alphabet. -/
theorem normalized_letters_in_alphabet (full : Bool) (raw : List Nat)
    (h : ∀ c ∈ raw, (65 ≤ c ∧ c ≤ 90) ∨ (97 ≤ c ∧ c ≤ 122) ∨ isWordChar c = false) :
    ∀ c ∈ pyNormalize full raw, c ∈ alphaOf full := by
  intro c hc
  cases full with
  | true =>
    unfold pyNormalize at hc
    rw [if_pos rfl] at hc
    rw [List.mem_filter] at hc
    obtain ⟨hcr, hcw⟩ := hc
    have hra : alphaOf true = ul_alpha := rfl
    rw [hra, mem_ul_alpha]
    rcases h c hcr with h1 | h2 | h3
    · exact Or.inl ⟨h1.1, by omega⟩
    · exact Or.inr ⟨h2.1, by omega⟩
    · rw [hcw] at h3; exact Bool.noConfusion h3
  | false =>
    unfold pyNormalize at hc
    rw [if_neg (by simp)] at hc
    rw [List.mem_map] at hc
    obtain ⟨d, hd, rfl⟩ := hc
    rw [List.mem_filter] at hd
    obtain ⟨hdr, hdw⟩ := hd
    have hra : alphaOf false = u_alpha := rfl
    rw [hra, mem_u_alpha]
    rcases h d hdr with h1 | h2 | h3
    · unfold pyUpper
      rw [if_neg (by omega)]
      omega
    · unfold pyUpper
      rw [if_pos (by omega)]
      omega
    · rw [hdw] at h3; exact Bool.noConfusion h3

/-- C3 witness: the raw input `"He!"` normalizes, under the restricted
alphabet, to characters of that alphabet. -/
theorem normalized_letters_in_alphabet_witness :
    (∀ c ∈ [72, 101, 33],
      (65 ≤ c ∧ c ≤ 90) ∨ (97 ≤ c ∧ c ≤ 122) ∨ isWordChar c = false) ∧
    (∀ c ∈ pyNormalize false [72, 101, 33], c ∈ alphaOf false) :=
  ⟨by decide, normalized_letters_in_alphabet false [72, 101, 33] (by decide)⟩

/-- C4: for either alphabet mode, the substitution table is square with side
length equal to the alphabet size, every row is a permutation of the
alphabet, and row 0 equals the alphabet in its original sorted order. -/
theorem vigenere_table_invariants (full : Bool) :
    (vigTable full).length = (alphaOf full).length ∧
    (∀ row ∈ vigTable full, row.length = (alphaOf full).length) ∧
    (∀ row ∈ vigTable full, row.Perm (alphaOf full)) ∧
    (vigTable full).getD 0 [] = alphaOf full := by
  have hn : 0 < (alphaOf full).length := by cases full <;> decide
  rw [vigTable_eq_rot full]
  refine ⟨rotTable_length _, ?_, ?_, ?_⟩
  · intro row hrow
    simp only [rotTable, List.mem_map, List.mem_range] at hrow
    obtain ⟨r, hr, rfl⟩ := hrow
    exact rot_length _ _ (by omega)
  · intro row hrow
    simp only [rotTable, List.mem_map, List.mem_range] at hrow
    obtain ⟨r, hr, rfl⟩ := hrow
    exact rot_perm _ _
  · rw [rotTable_getD _ 0 hn]
    simp

/-- C4 witness: the table invariants at the restricted alphabet. -/
theorem vigenere_table_invariants_witness :
    (vigTable false).length = (alphaOf false).length ∧
    (∀ row ∈ vigTable false, row.length = (alphaOf false).length) ∧
    (∀ row ∈ vigTable false, row.Perm (alphaOf false)) ∧
    (vigTable false).getD 0 [] = alphaOf false :=
  vigenere_table_invariants false

/-- C5: for every key with non-empty normalization and every length `L`,
key expansion succeeds with a string of length `L` whose symbol at position
`i` is the normalized key symbol at `i mod len(key)`. -/
theorem expand_cycles_key (full : Bool) (key : List Nat) (L : Nat)
    (h : pyNormalize full key ≠ []) :
    ∃ s, VigenereCipher.expand full key L = .ok s ∧ s.length = L ∧
      ∀ i, i < L → s.getD i 0 =
        (pyNormalize full key).getD (i % (pyNormalize full key).length) 0 := by
  refine ⟨ekList full key L, expand_eq_ok full key L h, ekList_length full key L, ?_⟩
  intro i hi
  have h1 : i < (ekList full key L).length := by rw [ekList_length]; exact hi
  unfold ekList at h1 ⊢
  rw [List.getD_eq_getElem _ _ h1, List.getElem_map, List.getElem_range]

/-- C5 witness: expanding `"AB"` to length 5 over the restricted alphabet
yields `"ABABA"`. -/
theorem expand_cycles_key_witness :
    pyNormalize false [65, 66] ≠ [] ∧
    VigenereCipher.expand false [65, 66] 5 = .ok [65, 66, 65, 66, 65] ∧
    (∃ s, VigenereCipher.expand false [65, 66] 5 = .ok s ∧ s.length = 5 ∧
      ∀ i, i < 5 → s.getD i 0 =
        (pyNormalize false [65, 66]).getD (i % (pyNormalize false [65, 66]).length) 0) :=
  ⟨by decide, rfl, expand_cycles_key false [65, 66] 5 (by decide)⟩

/-- C6: the code does not guard the empty normalized key: with non-empty
held text, `encrypt`/`decrypt` on a key normalizing to `""` raise the raw
builtin `ZeroDivisionError` from `i % len(key)` inside `expand` (not a
deliberately signalled `InvalidKey` error), and with empty held text they
raise nothing at all.  The held text is only reassigned after a successful
transform, so it is left unchanged. -/
theorem expand_empty_key_raises_zero_division :
    VigenereCipher.expand false [33] 1 = .error .zeroDivisionError ∧
    (⟨false, [65]⟩ : VigenereCipher).encrypt [33] = .error .zeroDivisionError ∧
    (⟨false, [65]⟩ : VigenereCipher).decrypt [33] = .error .zeroDivisionError ∧
    VigenereCipher.expand false [33] 0 = .ok [] ∧
    (⟨false, []⟩ : VigenereCipher).encrypt [33] = .ok ⟨false, []⟩ :=
  ⟨rfl, rfl, rfl, rfl, rfl⟩

/-- C7 counterexample: `get_inverse` is only invoked inside the per-symbol
loop, so decrypting an empty held text with a non-coprime multiplier
(gcd(13, 26) = 13) succeeds instead of failing. -/
theorem affine_decrypt_empty_text_cex :
    Int.gcd 13 26 ≠ 1 ∧
    (BlockAffineCipher.init [] 26 false).decrypt 13 0 = .ok ⟨2, 26, false, []⟩ :=
  ⟨by decide, rfl⟩

/-- C7 (amended): for non-empty held text and modulus equal to the active
alphabet size, `decrypt(a, b)` fails with the modular-inverse exception if
and only if gcd(a, modulus) is not 1; in the model an error means the held
text was never reassigned, matching the claim that no partial transform is
committed. -/
theorem affine_decrypt_error_iff_not_coprime (s : BlockAffineCipher) (a b : Int)
    (hmod : s.modulo = (s.alpha.length : Int)) (ht : s.text ≠ []) :
    (s.decrypt a b = .error .exception ↔ Int.gcd a s.modulo ≠ 1) := by
  constructor
  · intro he hg
    have hm2 : 2 ≤ s.modulo := by
      rw [hmod]
      have h2 := alphaOf_len2 s.full
      exact_mod_cast h2
    obtain ⟨s', hs'⟩ := aff_decrypt_ok_of_coprime s a b hm2 (le_of_eq hmod) hg
    rw [hs'] at he
    exact Except.noConfusion he
  · intro hg
    exact aff_decrypt_err s a b hg ht

/-- C7 witness: decrypting `"AB"` with multiplier 13 under modulus 26 fails
with the inverse exception, and the iff holds there. -/
theorem affine_decrypt_error_iff_not_coprime_witness :
    ((⟨2, 26, false, [65, 66]⟩ : BlockAffineCipher).modulo
      = ((⟨2, 26, false, [65, 66]⟩ : BlockAffineCipher).alpha.length : Int)) ∧
    (⟨2, 26, false, [65, 66]⟩ : BlockAffineCipher).text ≠ [] ∧
    ((⟨2, 26, false, [65, 66]⟩ : BlockAffineCipher).decrypt 13 0 = .error .exception ↔
      Int.gcd 13 (⟨2, 26, false, [65, 66]⟩ : BlockAffineCipher).modulo ≠ 1) :=
  ⟨rfl, by decide, affine_decrypt_error_iff_not_coprime _ 13 0 rfl (by decide)⟩

/-- C8 counterexample: the constructor accepts any positive modulus; with
modulus 27 (larger than the restricted alphabet) the computed index 26 is
out of range and `alpha[num]` raises `IndexError`, so encrypt is not always
defined. -/
theorem affine_encrypt_modulus_over_alphabet_cex :
    (0 : Int) < 27 ∧
    (BlockAffineCipher.init [65] 27 false).encrypt 0 26 = .error .indexError :=
  ⟨by decide, rfl⟩

/-- C8 (amended): whenever the modulus is positive and at most the alphabet
size, `encrypt(a, b)` is defined for all integers `a`, `b` and any held
text: it maps each symbol with `str.find` index `n` (−1 when absent) to the
alphabet symbol at `(a*n + b) mod modulus`, leaving the other fields of the
cipher unchanged. -/
theorem affine_encrypt_total_defined (s : BlockAffineCipher) (a b : Int)
    (h1 : 0 < s.modulo) (h2 : s.modulo ≤ (s.alpha.length : Int)) :
    s.encrypt a b = .ok ⟨s.block, s.modulo, s.full,
      s.text.map (fun c => s.alpha.getD ((a * pyFind s.alpha c + b).fmod s.modulo).toNat 0)⟩ :=
  aff_encrypt_total s a b h1 h2

/-- C8 witness: encrypting `"A1"` under modulus 26 with a negative
multiplier succeeds and follows the affine formula. -/
theorem affine_encrypt_total_defined_witness :
    (0 : Int) < (⟨2, 26, false, [65, 49]⟩ : BlockAffineCipher).modulo ∧
    (⟨2, 26, false, [65, 49]⟩ : BlockAffineCipher).modulo
      ≤ ((⟨2, 26, false, [65, 49]⟩ : BlockAffineCipher).alpha.length : Int) ∧
    (⟨2, 26, false, [65, 49]⟩ : BlockAffineCipher).encrypt (-7) 3 =
      .ok ⟨2, 26, false, [65, 49].map (fun c =>
        (⟨2, 26, false, [65, 49]⟩ : BlockAffineCipher).alpha.getD
          (((-7) * pyFind (⟨2, 26, false, [65, 49]⟩ : BlockAffineCipher).alpha c + 3).fmod
            (⟨2, 26, false, [65, 49]⟩ : BlockAffineCipher).modulo).toNat 0)⟩ :=
  ⟨by decide, by decide, affine_encrypt_total_defined _ (-7) 3 (by decide) (by decide)⟩

/-- C9 counterexample: the key `"1"` has non-empty normalization, but no
table row starts with `'1'`, so every decrypt fragment stays the empty
string and the output is shorter than the input. -/
theorem vigenere_decrypt_length_cex :
    pyNormalize false [49] ≠ [] ∧
    (⟨false, [65]⟩ : VigenereCipher).decrypt [49] = .ok ⟨false, []⟩ ∧
    ([] : List Nat).length ≠ [65].length :=
  ⟨by decide, rfl, by decide⟩

/-- C9 (amended): when the held text and the normalized key consist of
symbols of the active alphabet (and the normalized key is non-empty),
`encrypt` and `decrypt` succeed and replace the held text with an output of
exactly the input length. -/
theorem vigenere_length_preserved (s : VigenereCipher) (key : List Nat)
    (hT : ∀ c ∈ s.text, c ∈ alphaOf s.full)
    (hk : pyNormalize s.full key ≠ [])
    (hkA : ∀ c ∈ pyNormalize s.full key, c ∈ alphaOf s.full) :
    (∃ s1, s.encrypt key = .ok s1 ∧ s1.text.length = s.text.length) ∧
    (∃ s2, s.decrypt key = .ok s2 ∧ s2.text.length = s.text.length) :=
  vig_len_general s key hT hk hkA

/-- C9 witness: length preservation at text `"HI"` and key `"B"`. -/
theorem vigenere_length_preserved_witness :
    (∀ c ∈ (⟨false, [72, 73]⟩ : VigenereCipher).text,
      c ∈ alphaOf (⟨false, [72, 73]⟩ : VigenereCipher).full) ∧
    pyNormalize false [66] ≠ [] ∧
    (∀ c ∈ pyNormalize false [66], c ∈ alphaOf false) ∧
    ((∃ s1, (⟨false, [72, 73]⟩ : VigenereCipher).encrypt [66] = .ok s1 ∧
        s1.text.length = [72, 73].length) ∧
     (∃ s2, (⟨false, [72, 73]⟩ : VigenereCipher).decrypt [66] = .ok s2 ∧
        s2.text.length = [72, 73].length)) :=
  ⟨by decide, by decide, by decide,
   vigenere_length_preserved ⟨false, [72, 73]⟩ [66] (by decide) (by decide) (by decide)⟩

/-- C10: with a positive modulus bounded by the alphabet size, a held-text
symbol outside the active alphabet does not make encrypt fail: its
`str.find` index is −1, so it is replaced by the alphabet symbol at
`(b − a) mod modulus`, and every out-of-alphabet symbol is replaced by that
same symbol, so distinct ones collapse and decrypt cannot recover the
original. -/
theorem affine_encrypt_out_of_alphabet (s : BlockAffineCipher) (a b : Int) (c : Nat)
    (h1 : 0 < s.modulo) (h2 : s.modulo ≤ (s.alpha.length : Int))
    (hc : c ∉ s.alpha) (hmem : c ∈ s.text) :
    (∃ s', s.encrypt a b = .ok s') ∧
    affEncChar s.alpha s.modulo a b c =
      .ok (s.alpha.getD ((b - a).fmod s.modulo).toNat 0) ∧
    (∀ c2, c2 ∉ s.alpha →
      affEncChar s.alpha s.modulo a b c2 = affEncChar s.alpha s.modulo a b c) := by
  have hf : pyFind s.alpha c = -1 := by unfold pyFind; rw [if_neg hc]
  refine ⟨⟨_, aff_encrypt_total s a b h1 h2⟩, ?_, ?_⟩
  · rw [aff_encChar_ok s.alpha s.modulo a b c h1 h2, hf,
      show a * (-1 : Int) + b = b - a from by ring]
  · intro c2 hc2
    have hf2 : pyFind s.alpha c2 = -1 := by unfold pyFind; rw [if_neg hc2]
    rw [aff_encChar_ok s.alpha s.modulo a b c2 h1 h2,
        aff_encChar_ok s.alpha s.modulo a b c h1 h2, hf, hf2]

/-- C10 witness: in `"A1"` under modulus 26 with keys (3, 5), the digit
`'1'` is mapped to the symbol at index `(5 − 3) mod 26 = 2`, i.e. `'C'`. -/
theorem affine_encrypt_out_of_alphabet_witness :
    (0 : Int) < (⟨2, 26, false, [65, 49]⟩ : BlockAffineCipher).modulo ∧
    (⟨2, 26, false, [65, 49]⟩ : BlockAffineCipher).modulo
      ≤ ((⟨2, 26, false, [65, 49]⟩ : BlockAffineCipher).alpha.length : Int) ∧
    49 ∉ (⟨2, 26, false, [65, 49]⟩ : BlockAffineCipher).alpha ∧
    49 ∈ (⟨2, 26, false, [65, 49]⟩ : BlockAffineCipher).text ∧
    ((∃ s', (⟨2, 26, false, [65, 49]⟩ : BlockAffineCipher).encrypt 3 5 = .ok s') ∧
     affEncChar (⟨2, 26, false, [65, 49]⟩ : BlockAffineCipher).alpha
        (⟨2, 26, false, [65, 49]⟩ : BlockAffineCipher).modulo 3 5 49 =
       .ok ((⟨2, 26, false, [65, 49]⟩ : BlockAffineCipher).alpha.getD
         (((5 : Int) - 3).fmod (⟨2, 26, false, [65, 49]⟩ : BlockAffineCipher).modulo).toNat 0) ∧
     (∀ c2, c2 ∉ (⟨2, 26, false, [65, 49]⟩ : BlockAffineCipher).alpha →
       affEncChar (⟨2, 26, false, [65, 49]⟩ : BlockAffineCipher).alpha
           (⟨2, 26, false, [65, 49]⟩ : BlockAffineCipher).modulo 3 5 c2 =
         affEncChar (⟨2, 26, false, [65, 49]⟩ : BlockAffineCipher).alpha
           (⟨2, 26, false, [65, 49]⟩ : BlockAffineCipher).modulo 3 5 49)) :=
  ⟨by decide, by decide, by decide, by decide,
   affine_encrypt_out_of_alphabet ⟨2, 26, false, [65, 49]⟩ 3 5 49
     (by decide) (by decide) (by decide) (by decide)⟩
